import Mathlib

/-!
Shallow embedding of `src/accuratetime.c`, a Lua binding over the monotonic
timer of the operating system.

* `Double` models the finite values of IEEE-754 binary64 as rationals, with
  every C operation rounded to nearest, ties to even (53 bit significand).
  The inputs of the program are 64 bit signed integers, so every intermediate
  value is either `0` or has magnitude between `1e-9` and `2^64`: neither
  overflow, underflow, infinities nor NaN can arise, and the exponent range of
  binary64 is therefore left out of the model.
* The Lua state is its value stack; a C function pushes its results and returns
  how many of them there are.
* The operating system is an oracle answering timer queries; every query made
  is recorded in a trace.
-/

namespace Double

/-- Nearest integer to a rational, ties going to the even neighbour. -/
def roundHalfEven (q : ℚ) : ℤ :=
  if q - ⌊q⌋ < 1 / 2 then ⌊q⌋
  else if 1 / 2 < q - ⌊q⌋ then ⌊q⌋ + 1
  else if ⌊q⌋ % 2 = 0 then ⌊q⌋ else ⌊q⌋ + 1

/-- Spacing of binary64 values in the binade of `x`: `2 ^ (⌊log₂ |x|⌋ - 52)`. -/
def ulp (x : ℚ) : ℚ := (2 : ℚ) ^ (Int.log 2 |x| - 52)

/-- Rounding of an exact result to binary64 (round to nearest, ties to even). -/
def round (x : ℚ) : ℚ :=
  if x = 0 then 0 else (roundHalfEven (x / ulp x) : ℚ) * ulp x

/-- Conversion of a C integer to `double`. -/
def ofInt (i : ℤ) : ℚ := round (i : ℚ)

/-- The C operator `+` on two `double` values. -/
def add (a b : ℚ) : ℚ := round (a + b)

/-- The C operator `/` on two `double` values (divisor not zero). -/
def div (a b : ℚ) : ℚ := round (a / b)

/-- The literal `1.0e9`. -/
def lit_1e9 : ℚ := 1000000000

/-- Fractional part of a `double` value. -/
def frac (x : ℚ) : ℚ := x - ⌊x⌋

end Double

/-- Clock sources of `<time.h>`. -/
inductive clockid_t where
  | CLOCK_REALTIME
  | CLOCK_MONOTONIC
  | CLOCK_PROCESS_CPUTIME_ID
  | CLOCK_THREAD_CPUTIME_ID
  deriving DecidableEq, Repr

/-- The C `struct timespec`: both fields are signed integers. -/
structure timespec where
  tv_sec : ℤ
  tv_nsec : ℤ
  deriving DecidableEq, Repr

/-- C functions this module hands to Lua. -/
inductive lua_CFunction where
  | accurate_clock
  deriving DecidableEq, Repr

/-- Lua values that occur in this module. A number is a `double`; a library
table maps names to C closures, each over the function pointer it was made
from (which in C may be null). -/
inductive LuaValue where
  | nil
  | number (d : ℚ)
  | string (s : String)
  | table (fields : List (String × Option lua_CFunction))
  deriving DecidableEq

/-- The Lua state seen through the C API: the value stack, top last. -/
structure lua_State where
  stack : List LuaValue
  deriving DecidableEq

/-- What one `clock_gettime` call reports: the returned status and the
`timespec` left in the caller's buffer (meaningful only when status is `0`). -/
structure Reading where
  status : ℤ
  spec : timespec
  deriving DecidableEq

/-- The operating system: the answer to the `k`-th timer query of the process,
made on clock `clk`. -/
abbrev Kernel := ℕ → clockid_t → Reading

/-- Process state: the Lua state and the trace of timer queries made so far. -/
structure Process where
  L : lua_State
  queries : List clockid_t
  deriving DecidableEq

def lua_push (v : LuaValue) (p : Process) : Process :=
  { p with L := { stack := p.L.stack ++ [v] } }

def lua_pushnil (p : Process) : Process := lua_push LuaValue.nil p

def lua_pushstring (s : String) (p : Process) : Process := lua_push (LuaValue.string s) p

def lua_pushnumber (d : ℚ) (p : Process) : Process := lua_push (LuaValue.number d) p

/-- The system call `clock_gettime(clk, &spec)`: asks the kernel, records the
query. -/
def clock_gettime (os : Kernel) (clk : clockid_t) (p : Process) : Reading × Process :=
  (os p.queries.length clk, { p with queries := p.queries ++ [clk] })

/-- The expression `spec.tv_sec + spec.tv_nsec / 1.0e9` of line 18: both
integers are converted to `double`, the division is done first. -/
def time_in_seconds (spec : timespec) : ℚ :=
  Double.add (Double.ofInt spec.tv_sec)
    (Double.div (Double.ofInt spec.tv_nsec) Double.lit_1e9)

/-- The function `accurate_clock` : the number of results and the state left. -/
def accurate_clock (os : Kernel) (p : Process) : ℕ × Process :=
  let r := clock_gettime os clockid_t.CLOCK_MONOTONIC p
  if r.1.status ≠ 0 then
    (2, lua_pushstring "Failed to get time" (lua_pushnil r.2))
  else
    (1, lua_pushnumber (time_in_seconds r.1.spec) r.2)

/-- The C struct `luaL_Reg`; a null name ends an array of them. -/
structure luaL_Reg where
  name : Option String
  func : Option lua_CFunction
  deriving DecidableEq

/-- The array `LIBRARY` of lines 24-27, its `{0}` sentinel included. -/
def LIBRARY : List luaL_Reg :=
  [⟨some "clock", some lua_CFunction.accurate_clock⟩, ⟨none, none⟩]

/-- The assignment `t[k] = closure(f)` done by `lua_setfield`. -/
def lua_setfield (k : String) (f : Option lua_CFunction)
    (t : List (String × Option lua_CFunction)) : List (String × Option lua_CFunction) :=
  t.filter (fun e => e.1 ≠ k) ++ [(k, f)]

/-- The loop of `luaL_setfuncs`: walks the array up to the first null name and
sets each name to a closure over its function. -/
def luaL_setfuncs : List luaL_Reg → List (String × Option lua_CFunction) →
    List (String × Option lua_CFunction)
  | [], t => t
  | ⟨none, _⟩ :: _, t => t
  | ⟨some k, f⟩ :: l, t => luaL_setfuncs l (lua_setfield k f t)

/-- The Lua auxiliary `luaL_newlib(L, l)`: creates a new table, registers there
the functions of `l`, and leaves the table on the stack. -/
def luaL_newlib (l : List luaL_Reg) (p : Process) : Process :=
  lua_push (LuaValue.table (luaL_setfuncs l [])) p

/-- The function `luaopen_accuratetime`. -/
def luaopen_accuratetime (p : Process) : ℕ × Process :=
  (1, luaL_newlib LIBRARY p)

/-- The values a C function returns to Lua: the top `n` stack slots, in the
order they were pushed. -/
def results (r : ℕ × Process) : List LuaValue :=
  r.2.L.stack.drop (r.2.L.stack.length - r.1)

/-- Running the C function behind a Lua function value. -/
def lua_call (f : lua_CFunction) (os : Kernel) (p : Process) : ℕ × Process :=
  match f with
  | lua_CFunction.accurate_clock => accurate_clock os p

/-- Field lookup in a library table: the function bound to a name, if any. -/
def lua_getfield (v : LuaValue) (k : String) : Option lua_CFunction :=
  match v with
  | LuaValue.table fields => ((fields.find? (fun e => e.1 = k)).map Prod.snd).join
  | _ => none

/-- The names bound in a library table. -/
def lua_keys (v : LuaValue) : List String :=
  match v with
  | LuaValue.table fields => fields.map Prod.fst
  | _ => []

/-- A kernel that answers every timer query with the same reading. -/
def fixedKernel (r : Reading) : Kernel := fun _ _ => r

/-- A kernel that answers the first query with one reading and all later
queries with another. -/
def twoStepKernel (r1 r2 : Reading) : Kernel := fun k _ => if k = 0 then r1 else r2

/-- A process with an empty Lua stack that has made no timer query yet. -/
def freshProcess : Process := ⟨⟨[]⟩, []⟩

/-! ## Rounding to the nearest integer -/

namespace Double

theorem roundHalfEven_intCast (m : ℤ) : roundHalfEven (m : ℚ) = m := by
  simp [roundHalfEven]

theorem floor_le_roundHalfEven (q : ℚ) : ⌊q⌋ ≤ roundHalfEven q := by
  unfold roundHalfEven
  split_ifs <;> omega

theorem roundHalfEven_le_floor_succ (q : ℚ) : roundHalfEven q ≤ ⌊q⌋ + 1 := by
  unfold roundHalfEven
  split_ifs <;> omega

theorem roundHalfEven_mono {q r : ℚ} (h : q ≤ r) : roundHalfEven q ≤ roundHalfEven r := by
  rcases (Int.floor_mono h).lt_or_eq with hlt | heq
  · calc roundHalfEven q ≤ ⌊q⌋ + 1 := roundHalfEven_le_floor_succ q
      _ ≤ ⌊r⌋ := hlt
      _ ≤ roundHalfEven r := floor_le_roundHalfEven r
  · unfold roundHalfEven
    rw [← heq]
    split_ifs <;> first | omega | (exfalso; linarith)

/-- A value less than half a unit above an integer rounds down to it. -/
theorem roundHalfEven_add_small (m : ℤ) {t : ℚ} (h0 : 0 ≤ t) (h1 : t < 1 / 2) :
    roundHalfEven ((m : ℚ) + t) = m := by
  have hfl : ⌊(m : ℚ) + t⌋ = m := by
    rw [Int.floor_eq_iff]
    constructor <;> linarith
  unfold roundHalfEven
  rw [hfl]
  have : (m : ℚ) + t - m < 1 / 2 := by linarith
  rw [if_pos this]

/-- Rounding moves a value by at most half a unit. -/
theorem abs_roundHalfEven_sub_le (q : ℚ) : |(roundHalfEven q : ℚ) - q| ≤ 1 / 2 := by
  have h1 := Int.floor_le q
  have h2 := Int.lt_floor_add_one q
  rw [abs_le]
  unfold roundHalfEven
  split_ifs <;> push_cast <;> constructor <;> linarith

end Double

/-! ## Rounding to binary64 -/

namespace Double

theorem ulp_pos (x : ℚ) : 0 < ulp x := by
  unfold ulp
  positivity

theorem round_zero : round 0 = 0 := by
  simp [round]

theorem zpow_log_le {x : ℚ} (hx : 0 < x) : (2 : ℚ) ^ Int.log 2 x ≤ x := by
  have h := Int.zpow_log_le_self (b := 2) (by norm_num) hx
  simpa using h

theorem lt_zpow_log_succ (x : ℚ) : x < (2 : ℚ) ^ (Int.log 2 x + 1) := by
  have h := Int.lt_zpow_succ_log_self (b := 2) (by norm_num) x
  simpa using h

/-- The binade of a positive value determines its base 2 logarithm. -/
theorem log_eq_of_binade {x : ℚ} {e : ℤ} (h1 : (2 : ℚ) ^ e ≤ x) (h2 : x < (2 : ℚ) ^ (e + 1)) :
    Int.log 2 x = e := by
  have hx : 0 < x := lt_of_lt_of_le (by positivity) h1
  have ha : e ≤ Int.log 2 x := by
    rw [← Int.zpow_le_iff_le_log (by norm_num) hx]
    simpa using h1
  have hb : Int.log 2 x < e + 1 := by
    rw [← Int.lt_zpow_iff_log_lt (by norm_num) hx]
    simpa using h2
  omega

theorem zpow_split (e : ℤ) : (2 : ℚ) ^ e = 2 ^ (52 : ℕ) * 2 ^ (e - 52) := by
  rw [← zpow_natCast, ← zpow_add₀ (by norm_num : (2 : ℚ) ≠ 0)]
  congr 1
  push_cast
  ring

theorem zpow_split_succ (e : ℤ) : (2 : ℚ) ^ (e + 1) = 2 ^ (53 : ℕ) * 2 ^ (e - 52) := by
  rw [← zpow_natCast, ← zpow_add₀ (by norm_num : (2 : ℚ) ≠ 0)]
  congr 1
  push_cast
  ring

/-- Rounding of a positive value written out with the exponent of its binade. -/
theorem round_of_binade {x : ℚ} {e : ℤ} (h1 : (2 : ℚ) ^ e ≤ x) (h2 : x < (2 : ℚ) ^ (e + 1)) :
    round x = (roundHalfEven (x / 2 ^ (e - 52)) : ℚ) * 2 ^ (e - 52) := by
  have hx : 0 < x := lt_of_lt_of_le (by positivity) h1
  unfold round ulp
  rw [if_neg hx.ne.symm, abs_of_pos hx, log_eq_of_binade h1 h2]

/-- The significand chosen for a positive value lies between `2^52` and `2^53`. -/
theorem significand_bounds {x : ℚ} {e : ℤ} (h1 : (2 : ℚ) ^ e ≤ x) (h2 : x < (2 : ℚ) ^ (e + 1)) :
    (2 : ℤ) ^ (52 : ℕ) ≤ roundHalfEven (x / 2 ^ (e - 52)) ∧
      roundHalfEven (x / 2 ^ (e - 52)) ≤ (2 : ℤ) ^ (53 : ℕ) := by
  have hu : (0 : ℚ) < 2 ^ (e - 52) := by positivity
  rw [zpow_split e] at h1
  rw [zpow_split_succ e] at h2
  have ha : (((2 : ℤ) ^ (52 : ℕ) : ℤ) : ℚ) ≤ x / 2 ^ (e - 52) := by
    rw [le_div_iff₀ hu]
    push_cast
    exact h1
  have hb : x / 2 ^ (e - 52) ≤ (((2 : ℤ) ^ (53 : ℕ) : ℤ) : ℚ) := by
    rw [div_le_iff₀ hu]
    push_cast
    exact h2.le
  have ha2 := roundHalfEven_mono ha
  have hb2 := roundHalfEven_mono hb
  rw [roundHalfEven_intCast] at ha2 hb2
  exact ⟨ha2, hb2⟩

/-- Rounding keeps a positive value inside the closure of its binade. -/
theorem round_binade {x : ℚ} {e : ℤ} (h1 : (2 : ℚ) ^ e ≤ x) (h2 : x < (2 : ℚ) ^ (e + 1)) :
    (2 : ℚ) ^ e ≤ round x ∧ round x ≤ (2 : ℚ) ^ (e + 1) := by
  have hu : (0 : ℚ) < 2 ^ (e - 52) := by positivity
  obtain ⟨ha, hb⟩ := significand_bounds h1 h2
  have ha2 : ((2 : ℚ) ^ (52 : ℕ)) ≤ (roundHalfEven (x / 2 ^ (e - 52)) : ℚ) := by
    exact_mod_cast ha
  have hb2 : (roundHalfEven (x / 2 ^ (e - 52)) : ℚ) ≤ (2 : ℚ) ^ (53 : ℕ) := by
    exact_mod_cast hb
  rw [round_of_binade h1 h2, zpow_split e, zpow_split_succ e]
  exact ⟨mul_le_mul_of_nonneg_right ha2 hu.le, mul_le_mul_of_nonneg_right hb2 hu.le⟩

theorem round_nonneg {x : ℚ} (hx : 0 ≤ x) : 0 ≤ round x := by
  rcases hx.lt_or_eq with h | h
  · have h1 := zpow_log_le h
    have h2 := lt_zpow_log_succ x
    have h3 : (0 : ℚ) < 2 ^ Int.log 2 x := by positivity
    exact (h3.trans_le (round_binade h1 h2).1).le
  · rw [← h, round_zero]

/-- Rounding is monotone on the non-negative values. -/
theorem round_mono {x y : ℚ} (hx : 0 ≤ x) (hxy : x ≤ y) : round x ≤ round y := by
  rcases hx.lt_or_eq with h | h
  · have hy : 0 < y := h.trans_le hxy
    have hx1 := zpow_log_le h
    have hx2 := lt_zpow_log_succ x
    have hy1 := zpow_log_le hy
    have hy2 := lt_zpow_log_succ y
    rcases (Int.log_mono_right (b := 2) h hxy).lt_or_eq with hlt | heq
    · calc round x ≤ (2 : ℚ) ^ (Int.log 2 x + 1) := (round_binade hx1 hx2).2
        _ ≤ (2 : ℚ) ^ Int.log 2 y := zpow_le_zpow_right₀ (by norm_num) hlt
        _ ≤ round y := (round_binade hy1 hy2).1
    · rw [← heq] at hy1 hy2
      rw [round_of_binade hx1 hx2, round_of_binade hy1 hy2]
      have hu : (0 : ℚ) < 2 ^ (Int.log 2 x - 52) := by positivity
      have hq : x / 2 ^ (Int.log 2 x - 52) ≤ y / 2 ^ (Int.log 2 x - 52) :=
        div_le_div_of_nonneg_right hxy hu.le
      have hm : (roundHalfEven (x / 2 ^ (Int.log 2 x - 52)) : ℚ) ≤
          (roundHalfEven (y / 2 ^ (Int.log 2 x - 52)) : ℚ) := by
        exact_mod_cast roundHalfEven_mono hq
      exact mul_le_mul_of_nonneg_right hm hu.le
  · rw [← h, round_zero]
    exact round_nonneg (h ▸ hxy)

end Double

/-! ## Exactly representable values, and the rounding error -/

namespace Double

/-- Every `m * 2^k` with `m < 2^53` is a binary64 value: rounding leaves it as it is. -/
theorem round_exact (m : ℕ) (k : ℤ) (hm : m < 2 ^ 53) :
    round ((m : ℚ) * 2 ^ k) = (m : ℚ) * 2 ^ k := by
  rcases Nat.eq_zero_or_pos m with h0 | hpos
  · subst h0
    simp [round_zero]
  · have hk : (0 : ℚ) < 2 ^ k := by positivity
    have hmq : (0 : ℚ) < (m : ℚ) := by exact_mod_cast hpos
    have hx : (0 : ℚ) < (m : ℚ) * 2 ^ k := mul_pos hmq hk
    have h1 := zpow_log_le hx
    have h2 := lt_zpow_log_succ ((m : ℚ) * 2 ^ k)
    have hlt : (2 : ℚ) ^ Int.log 2 ((m : ℚ) * 2 ^ k) < (2 : ℚ) ^ (k + 53) := by
      have hm2 : (m : ℚ) < 2 ^ (53 : ℕ) := by exact_mod_cast hm
      calc (2 : ℚ) ^ Int.log 2 ((m : ℚ) * 2 ^ k) ≤ (m : ℚ) * 2 ^ k := h1
        _ < 2 ^ (53 : ℕ) * 2 ^ k := mul_lt_mul_of_pos_right hm2 hk
        _ = (2 : ℚ) ^ (k + 53) := by
          rw [← zpow_natCast, ← zpow_add₀ (by norm_num : (2 : ℚ) ≠ 0)]
          congr 1
          push_cast
          ring
    have he : Int.log 2 ((m : ℚ) * 2 ^ k) < k + 53 :=
      (zpow_lt_zpow_iff_right₀ (by norm_num : (1 : ℚ) < 2)).1 hlt
    rw [round_of_binade h1 h2]
    generalize Int.log 2 ((m : ℚ) * 2 ^ k) = e at he
    obtain ⟨j, hj⟩ : ∃ j : ℕ, k = (e - 52) + j := ⟨(k - (e - 52)).toNat, by omega⟩
    have hq : (m : ℚ) * 2 ^ k / 2 ^ (e - 52) = (((m : ℤ) * 2 ^ j : ℤ) : ℚ) := by
      rw [hj, zpow_add₀ (by norm_num : (2 : ℚ) ≠ 0), zpow_natCast]
      push_cast
      field_simp
      ring
    rw [hq, roundHalfEven_intCast, hj, zpow_add₀ (by norm_num : (2 : ℚ) ≠ 0), zpow_natCast]
    push_cast
    ring

/-- An integer below `2^53` converts to `double` without change. -/
theorem ofInt_exact (m : ℕ) (hm : m < 2 ^ 53) : ofInt (m : ℤ) = (m : ℚ) := by
  have h := round_exact m 0 hm
  simpa [ofInt] using h

/-- In a binade where the spacing is at least `2`, adding less than `1` to a
binary64 value is absorbed by the rounding. -/
theorem round_absorb (M e : ℤ) (he : 53 ≤ e) (hM1 : (2 : ℤ) ^ (52 : ℕ) ≤ M)
    (hM2 : M < (2 : ℤ) ^ (53 : ℕ)) {a : ℚ} (h0 : 0 ≤ a) (h1 : a < 1) :
    round ((M : ℚ) * 2 ^ (e - 52) + a) = (M : ℚ) * 2 ^ (e - 52) := by
  have hu : (2 : ℚ) ≤ 2 ^ (e - 52) := by
    have h := zpow_le_zpow_right₀ (by norm_num : (1 : ℚ) ≤ 2) (by omega : (1 : ℤ) ≤ e - 52)
    simpa using h
  have hupos : (0 : ℚ) < 2 ^ (e - 52) := by positivity
  have hMa : ((2 : ℚ) ^ (52 : ℕ)) ≤ (M : ℚ) := by exact_mod_cast hM1
  have hMb : (M : ℚ) + 1 ≤ (2 : ℚ) ^ (53 : ℕ) := by exact_mod_cast hM2
  have hb1 : (2 : ℚ) ^ e ≤ (M : ℚ) * 2 ^ (e - 52) + a := by
    rw [zpow_split e]
    have := mul_le_mul_of_nonneg_right hMa hupos.le
    linarith
  have hb2 : (M : ℚ) * 2 ^ (e - 52) + a < (2 : ℚ) ^ (e + 1) := by
    rw [zpow_split_succ e]
    have := mul_le_mul_of_nonneg_right hMb hupos.le
    linarith
  rw [round_of_binade hb1 hb2]
  have hq : ((M : ℚ) * 2 ^ (e - 52) + a) / 2 ^ (e - 52) = (M : ℚ) + a / 2 ^ (e - 52) := by
    field_simp
  have ht0 : 0 ≤ a / 2 ^ (e - 52) := div_nonneg h0 hupos.le
  have ht1 : a / 2 ^ (e - 52) < 1 / 2 := by
    rw [div_lt_iff₀ hupos]
    linarith
  rw [hq, roundHalfEven_add_small M ht0 ht1]

/-- Once a value of at least `2^53` has been rounded, adding less than `1` to
the result and rounding again gives the same result. -/
theorem round_round_add {x a : ℚ} (hx : (2 : ℚ) ^ (53 : ℕ) ≤ x) (h0 : 0 ≤ a) (h1 : a < 1) :
    round (round x + a) = round x := by
  have hpos : 0 < x := lt_of_lt_of_le (by positivity) hx
  have hb1 := zpow_log_le hpos
  have hb2 := lt_zpow_log_succ x
  have he : (53 : ℤ) ≤ Int.log 2 x := by
    rw [← Int.zpow_le_iff_le_log (by norm_num) hpos]
    have h53 : ((2 : ℕ) : ℚ) ^ (53 : ℤ) = (2 : ℚ) ^ (53 : ℕ) := by norm_num
    rw [h53]
    exact hx
  obtain ⟨hM1, hM2⟩ := significand_bounds hb1 hb2
  rw [round_of_binade hb1 hb2]
  generalize Int.log 2 x = e at he hM1 hM2
  generalize roundHalfEven (x / 2 ^ (e - 52)) = M at hM1 hM2
  rcases hM2.lt_or_eq with hlt | heq
  · exact round_absorb M e he hM1 hlt h0 h1
  · have h2 : (M : ℚ) * 2 ^ (e - 52) =
        (((2 : ℤ) ^ (52 : ℕ) : ℤ) : ℚ) * 2 ^ (e + 1 - 52) := by
      rw [heq, show e + 1 - 52 = (e - 52) + 1 by ring,
        zpow_add₀ (by norm_num : (2 : ℚ) ≠ 0)]
      push_cast
      ring
    rw [h2]
    exact round_absorb _ (e + 1) (by omega) le_rfl (by norm_num) h0 h1

/-- The relative error of one rounding is at most `2^-53`. -/
theorem abs_round_sub_le (x : ℚ) : |round x - x| ≤ |x| / 2 ^ (53 : ℕ) := by
  by_cases hx : x = 0
  · subst hx
    simp [round_zero]
  · have habs : 0 < |x| := abs_pos.2 hx
    have hb1 := zpow_log_le habs
    have hu : 0 < ulp x := ulp_pos x
    have hr : round x - x = ((roundHalfEven (x / ulp x) : ℚ) - x / ulp x) * ulp x := by
      unfold round
      rw [if_neg hx]
      field_simp
    have hh := abs_roundHalfEven_sub_le (x / ulp x)
    rw [hr, abs_mul, abs_of_pos hu]
    have h3 : |(roundHalfEven (x / ulp x) : ℚ) - x / ulp x| * ulp x ≤ 1 / 2 * ulp x :=
      mul_le_mul_of_nonneg_right hh hu.le
    have h4 : (2 : ℚ) ^ (52 : ℕ) * ulp x ≤ |x| := by
      unfold ulp
      rw [← zpow_split]
      exact hb1
    rw [le_div_iff₀ (by positivity)]
    have h5 : (2 : ℚ) ^ (53 : ℕ) = 2 * 2 ^ (52 : ℕ) := by norm_num
    rw [h5]
    nlinarith

end Double

/-! ## Negative values -/

namespace Double

/-- Rounding to the nearest integer, ties to even, is an odd function. -/
theorem roundHalfEven_neg (q : ℚ) : roundHalfEven (-q) = -roundHalfEven q := by
  by_cases hq : q = (⌊q⌋ : ℚ)
  · have h1 : -q = ((-⌊q⌋ : ℤ) : ℚ) := by
      push_cast
      linarith
    rw [h1, roundHalfEven_intCast]
    nth_rewrite 2 [hq]
    rw [roundHalfEven_intCast]
  · have hle := Int.floor_le q
    have hlt := Int.lt_floor_add_one q
    have hne : (⌊q⌋ : ℚ) < q := lt_of_le_of_ne hle (Ne.symm hq)
    have hfl : ⌊-q⌋ = -⌊q⌋ - 1 := by
      rw [Int.floor_eq_iff]
      push_cast
      constructor <;> linarith
    unfold roundHalfEven
    rw [hfl]
    push_cast
    split_ifs <;> first | omega | (exfalso; linarith)

theorem round_neg (x : ℚ) : round (-x) = -round x := by
  by_cases hx : x = 0
  · subst hx
    simp [round_zero]
  · have hnx : -x ≠ 0 := neg_ne_zero.2 hx
    have hu : ulp (-x) = ulp x := by
      unfold ulp
      rw [abs_neg]
    unfold round
    rw [if_neg hx, if_neg hnx, hu, neg_div, roundHalfEven_neg]
    push_cast
    ring

theorem round_nonpos {x : ℚ} (hx : x ≤ 0) : round x ≤ 0 := by
  have h := round_nonneg (neg_nonneg.2 hx)
  rw [round_neg] at h
  linarith

/-- Rounding is monotone on all values. -/
theorem round_monotone {x y : ℚ} (hxy : x ≤ y) : round x ≤ round y := by
  rcases le_total 0 x with hx | hx
  · exact round_mono hx hxy
  · rcases le_total 0 y with hy | hy
    · exact (round_nonpos hx).trans (round_nonneg hy)
    · have h := round_mono (neg_nonneg.2 hy) (neg_le_neg hxy)
      rw [round_neg, round_neg] at h
      linarith

/-- Every `-(m * 2^k)` with `m < 2^53` is a binary64 value as well. -/
theorem round_exact_neg (m : ℕ) (k : ℤ) (hm : m < 2 ^ 53) :
    round (-((m : ℚ) * 2 ^ k)) = -((m : ℚ) * 2 ^ k) := by
  rw [round_neg, round_exact m k hm]

end Double

/-! ## The two paths of `accurate_clock` -/

/-- The failure path: two values pushed, one query recorded. -/
theorem accurate_clock_of_failure (os : Kernel) (p : Process)
    (h : (os p.queries.length clockid_t.CLOCK_MONOTONIC).status ≠ 0) :
    accurate_clock os p =
      (2, ⟨⟨p.L.stack ++ [LuaValue.nil, LuaValue.string "Failed to get time"]⟩,
        p.queries ++ [clockid_t.CLOCK_MONOTONIC]⟩) := by
  simp [accurate_clock, clock_gettime, h, lua_pushstring, lua_pushnil, lua_push]

/-- The success path: one number pushed, one query recorded. -/
theorem accurate_clock_of_success (os : Kernel) (p : Process)
    (h : (os p.queries.length clockid_t.CLOCK_MONOTONIC).status = 0) :
    accurate_clock os p =
      (1, ⟨⟨p.L.stack ++ [LuaValue.number
          (time_in_seconds (os p.queries.length clockid_t.CLOCK_MONOTONIC).spec)]⟩,
        p.queries ++ [clockid_t.CLOCK_MONOTONIC]⟩) := by
  simp [accurate_clock, clock_gettime, h, lua_pushnumber, lua_push]

/-- The values returned when `vs` was pushed and its length is the count. -/
theorem results_push (st vs : List LuaValue) (q : List clockid_t) :
    results (vs.length, ⟨⟨st ++ vs⟩, q⟩) = vs := by
  simp [results]

theorem results_of_failure (os : Kernel) (p : Process)
    (h : (os p.queries.length clockid_t.CLOCK_MONOTONIC).status ≠ 0) :
    results (accurate_clock os p) = [LuaValue.nil, LuaValue.string "Failed to get time"] := by
  rw [accurate_clock_of_failure os p h]
  exact results_push p.L.stack [LuaValue.nil, LuaValue.string "Failed to get time"] _

theorem results_of_success (os : Kernel) (p : Process)
    (h : (os p.queries.length clockid_t.CLOCK_MONOTONIC).status = 0) :
    results (accurate_clock os p) =
      [LuaValue.number (time_in_seconds (os p.queries.length clockid_t.CLOCK_MONOTONIC).spec)] := by
  rw [accurate_clock_of_success os p h]
  exact results_push p.L.stack [LuaValue.number _] _

/-! ## The conversion of line 18 -/

theorem time_in_seconds_mk (s n : ℤ) :
    time_in_seconds ⟨s, n⟩ =
      Double.round (Double.ofInt s + Double.div (Double.ofInt n) Double.lit_1e9) := rfl

/-- A nanosecond count inside one second converts exactly. -/
theorem ofInt_nsec {n : ℤ} (h0 : 0 ≤ n) (h1 : n ≤ 999999999) : Double.ofInt n = (n : ℚ) := by
  obtain ⟨m, rfl⟩ := Int.eq_ofNat_of_zero_le h0
  have hm : m < 2 ^ 53 := by omega
  exact_mod_cast Double.ofInt_exact m hm

theorem ofInt_nonneg {s : ℤ} (h0 : 0 ≤ s) : 0 ≤ Double.ofInt s :=
  Double.round_nonneg (by exact_mod_cast h0)

/-- The converted fraction of a second lies in `[0, 1)`. -/
theorem subsecond_range {n : ℤ} (h0 : 0 ≤ n) (h1 : n ≤ 999999999) :
    0 ≤ Double.div (Double.ofInt n) Double.lit_1e9 ∧
      Double.div (Double.ofInt n) Double.lit_1e9 < 1 := by
  rw [ofInt_nsec h0 h1]
  unfold Double.div Double.lit_1e9
  have hn0 : (0 : ℚ) ≤ (n : ℚ) := by exact_mod_cast h0
  have hn1 : (n : ℚ) ≤ 999999999 := by exact_mod_cast h1
  have hq0 : (0 : ℚ) ≤ (n : ℚ) / 1000000000 := by positivity
  have hq1 : (n : ℚ) / 1000000000 ≤ 999999999 / 1000000000 := by
    rw [div_le_div_iff_of_pos_right (by norm_num)]
    exact hn1
  refine ⟨Double.round_nonneg hq0, ?_⟩
  have herr := Double.abs_round_sub_le ((n : ℚ) / 1000000000)
  rw [abs_of_nonneg hq0, abs_le] at herr
  have h53 : (1 : ℚ) ≤ 2 ^ (53 : ℕ) := by norm_num
  have hdiv : (n : ℚ) / 1000000000 / 2 ^ (53 : ℕ) ≤ (n : ℚ) / 1000000000 / 1 :=
    div_le_div_of_nonneg_left hq0 (by norm_num) h53
  have h2 : (n : ℚ) / 1000000000 / 2 ^ (53 : ℕ) ≤ 999999999 / 1000000000 / 2 ^ (53 : ℕ) := by
    rw [div_le_div_iff_of_pos_right (by positivity)]
    exact hq1
  have h3 : (999999999 : ℚ) / 1000000000 / 2 ^ (53 : ℕ) < 1 / 1000000000 := by norm_num
  linarith [herr.2]

/-- Converting a non-negative integer yields a binary64 value: rounding it
again changes nothing. -/
theorem round_ofInt {s : ℤ} (h0 : 0 ≤ s) : Double.round (Double.ofInt s) = Double.ofInt s := by
  obtain ⟨m, rfl⟩ := Int.eq_ofNat_of_zero_le h0
  by_cases hm : m < 2 ^ 53
  · rw [Double.ofInt_exact m hm]
    have h := Double.round_exact m 0 hm
    simpa using h
  · have hx : (2 : ℚ) ^ (53 : ℕ) ≤ ((m : ℤ) : ℚ) := by
      push_cast
      exact_mod_cast Nat.le_of_not_lt hm
    have h := Double.round_round_add hx le_rfl (by norm_num : (0 : ℚ) < 1)
    simpa [Double.ofInt] using h

theorem ofInt_mono {s t : ℤ} (h0 : 0 ≤ s) (h : s ≤ t) : Double.ofInt s ≤ Double.ofInt t :=
  Double.round_mono (by exact_mod_cast h0) (by exact_mod_cast h)

theorem time_in_seconds_nonneg {s n : ℤ} (hs : 0 ≤ s) (hn0 : 0 ≤ n) (hn1 : n ≤ 999999999) :
    0 ≤ time_in_seconds ⟨s, n⟩ := by
  rw [time_in_seconds_mk]
  exact Double.round_nonneg (add_nonneg (ofInt_nonneg hs) (subsecond_range hn0 hn1).1)

/-- Adding the fraction of a second never carries the result above the
conversion of the next whole second. -/
theorem time_in_seconds_le_next {s t n : ℤ} (hs : 0 ≤ s) (hst : s < t)
    (hn0 : 0 ≤ n) (hn1 : n ≤ 999999999) :
    time_in_seconds ⟨s, n⟩ ≤ Double.ofInt t := by
  obtain ⟨hq0, hq1⟩ := subsecond_range hn0 hn1
  rw [time_in_seconds_mk]
  obtain ⟨m, rfl⟩ := Int.eq_ofNat_of_zero_le hs
  by_cases hm : m < 2 ^ 53
  · rw [Double.ofInt_exact m hm]
    have hle : (m : ℚ) + Double.div (Double.ofInt n) Double.lit_1e9 ≤ (t : ℚ) := by
      have : ((m : ℤ) : ℚ) + 1 ≤ (t : ℚ) := by exact_mod_cast hst
      push_cast at this
      linarith
    exact Double.round_mono (add_nonneg (by positivity) hq0) hle
  · have hx : (2 : ℚ) ^ (53 : ℕ) ≤ ((m : ℤ) : ℚ) := by
      push_cast
      exact_mod_cast Nat.le_of_not_lt hm
    have h : Double.round (Double.ofInt (m : ℤ) + Double.div (Double.ofInt n) Double.lit_1e9) =
        Double.ofInt (m : ℤ) := Double.round_round_add hx hq0 hq1
    rw [h]
    exact ofInt_mono hs hst.le

/-- The conversion preserves the lexicographic order of valid readings. -/
theorem time_in_seconds_mono {s1 n1 s2 n2 : ℤ} (hs1 : 0 ≤ s1)
    (hn1 : 0 ≤ n1 ∧ n1 ≤ 999999999) (hn2 : 0 ≤ n2 ∧ n2 ≤ 999999999)
    (hle : s1 < s2 ∨ (s1 = s2 ∧ n1 ≤ n2)) :
    time_in_seconds ⟨s1, n1⟩ ≤ time_in_seconds ⟨s2, n2⟩ := by
  rcases hle with hlt | ⟨rfl, hn⟩
  · have hs2 : 0 ≤ s2 := hs1.trans hlt.le
    calc time_in_seconds ⟨s1, n1⟩ ≤ Double.ofInt s2 :=
          time_in_seconds_le_next hs1 hlt hn1.1 hn1.2
      _ = Double.round (Double.ofInt s2) := (round_ofInt hs2).symm
      _ ≤ time_in_seconds ⟨s2, n2⟩ := by
          rw [time_in_seconds_mk]
          apply Double.round_mono (ofInt_nonneg hs2)
          linarith [(subsecond_range hn2.1 hn2.2).1]
  · unfold time_in_seconds Double.add
    have hq : Double.div (Double.ofInt n1) Double.lit_1e9 ≤
        Double.div (Double.ofInt n2) Double.lit_1e9 := by
      rw [ofInt_nsec hn1.1 hn1.2, ofInt_nsec hn2.1 hn2.2]
      unfold Double.div Double.lit_1e9
      have h0 : (0 : ℚ) ≤ (n1 : ℚ) := by exact_mod_cast hn1.1
      have h1 : (n1 : ℚ) ≤ (n2 : ℚ) := by exact_mod_cast hn
      apply Double.round_mono (by positivity)
      rw [div_le_div_iff_of_pos_right (by norm_num)]
      exact h1
    apply Double.round_mono (add_nonneg (ofInt_nonneg hs1) (subsecond_range hn1.1 hn1.2).1)
    linarith

/-- A value given as `m * 2^k` with `m < 2^53` is left alone by the rounding. -/
theorem round_dyadic {x : ℚ} (m : ℕ) (k : ℤ) (hm : m < 2 ^ 53) (hx : x = (m : ℚ) * 2 ^ k) :
    Double.round x = x := by
  rw [hx]
  exact Double.round_exact m k hm

/-- A tie between an even integer and its successor goes to the even one. -/
theorem roundHalfEven_tie_even (m : ℤ) (hm : m % 2 = 0) :
    Double.roundHalfEven ((m : ℚ) + 1 / 2) = m := by
  have hfl : ⌊(m : ℚ) + 1 / 2⌋ = m := by
    rw [Int.floor_eq_iff]
    constructor <;> linarith
  unfold Double.roundHalfEven
  rw [hfl]
  have h1 : ¬ ((m : ℚ) + 1 / 2 - m < 1 / 2) := by
    intro h
    linarith
  have h2 : ¬ ((1 : ℚ) / 2 < (m : ℚ) + 1 / 2 - m) := by
    intro h
    linarith
  rw [if_neg h1, if_neg h2, if_pos hm]

/-- The accumulated rounding error of the conversion: four roundings, each of
relative error at most `2^-53`. -/
theorem time_in_seconds_error (s n : ℤ) :
    |time_in_seconds ⟨s, n⟩ - ((s : ℚ) + (n : ℚ) / 1000000000)| ≤
      (|(s : ℚ)| + |(n : ℚ)| / 1000000000) / 2 ^ (51 : ℕ) := by
  rw [time_in_seconds_mk]
  unfold Double.div Double.lit_1e9 Double.ofInt
  have e1 := Double.abs_round_sub_le (s : ℚ)
  have e2 := Double.abs_round_sub_le (n : ℚ)
  have e3 := Double.abs_round_sub_le (Double.round (n : ℚ) / 1000000000)
  have e4 := Double.abs_round_sub_le
    (Double.round (s : ℚ) + Double.round (Double.round (n : ℚ) / 1000000000))
  generalize Double.round (Double.round (s : ℚ) +
    Double.round (Double.round (n : ℚ) / 1000000000)) = v at e4 ⊢
  generalize Double.round (Double.round (n : ℚ) / 1000000000) = Q at e3 e4 ⊢
  generalize Double.round (n : ℚ) = N at e2 e3 ⊢
  generalize Double.round (s : ℚ) = S at e1 e4 ⊢
  have t1 : |S| ≤ |S - s| + |(s : ℚ)| := by
    have := abs_add (S - s) (s : ℚ)
    simpa using this
  have t2 : |N| ≤ |N - n| + |(n : ℚ)| := by
    have := abs_add (N - n) (n : ℚ)
    simpa using this
  have t3 : |N / 1000000000| = |N| / 1000000000 := by
    rw [abs_div]
    norm_num
  have t4 : |Q| ≤ |Q - N / 1000000000| + |N / 1000000000| := by
    have := abs_add (Q - N / 1000000000) (N / 1000000000)
    simpa using this
  have t5 : |S + Q| ≤ |S| + |Q| := abs_add S Q
  have t6 : |v - ((s : ℚ) + (n : ℚ) / 1000000000)| ≤
      |v - (S + Q)| + |S - s| + |Q - N / 1000000000| + |N - n| / 1000000000 := by
    have hsplit : v - ((s : ℚ) + (n : ℚ) / 1000000000) =
        (v - (S + Q)) + (S - s) + (Q - N / 1000000000) + (N - n) / 1000000000 := by ring
    have hlast : |(N - n) / 1000000000| = |N - n| / 1000000000 := by
      rw [abs_div]
      norm_num
    rw [hsplit, ← hlast]
    exact (abs_add _ _).trans (add_le_add_right ((abs_add _ _).trans
      (add_le_add_right (abs_add _ _) _)) _)
  rw [t3] at e3 t4
  have a1 := abs_nonneg (s : ℚ)
  have a2 := abs_nonneg (n : ℚ)
  norm_num at e1 e2 e3 e4 ⊢
  linarith

/-- The scenario reading `(100, 250000000)` converts to `100.25` exactly. -/
theorem time_in_seconds_100_25 : time_in_seconds ⟨100, 250000000⟩ = 100.25 := by
  rw [time_in_seconds_mk]
  have h1 : Double.ofInt 100 = 100 := by
    simpa using Double.ofInt_exact 100 (by norm_num)
  have h2 : Double.ofInt 250000000 = 250000000 := by
    simpa using Double.ofInt_exact 250000000 (by norm_num)
  have h3 : Double.div 250000000 Double.lit_1e9 = 1 / 4 := by
    unfold Double.div Double.lit_1e9
    have h := round_dyadic (x := 250000000 / 1000000000) 1 (-2) (by norm_num) (by norm_num)
    rw [h]
    norm_num
  rw [h1, h2, h3]
  have h := round_dyadic (x := 100 + 1 / 4) 401 (-2) (by norm_num) (by norm_num)
  rw [h]
  norm_num

/-- The reading `(0, 0)` converts to `0`. -/
theorem time_in_seconds_zero : time_in_seconds ⟨0, 0⟩ = 0 := by
  simp [time_in_seconds_mk, Double.ofInt, Double.div, Double.round_zero]

/-- Half a second converts to `1/2` exactly. -/
theorem half_second : Double.div (Double.ofInt 500000000) Double.lit_1e9 = 1 / 2 := by
  have h2 : Double.ofInt 500000000 = 500000000 := by
    simpa using Double.ofInt_exact 500000000 (by norm_num)
  rw [h2]
  unfold Double.div Double.lit_1e9
  have h := round_dyadic (x := 500000000 / 1000000000) 1 (-1) (by norm_num) (by norm_num)
  rw [h]
  norm_num

/-- Below `2^52` seconds the half second is kept exactly. -/
theorem time_in_seconds_half {s : ℤ} (h0 : 0 ≤ s) (h1 : s < 2 ^ 52) :
    time_in_seconds ⟨s, 500000000⟩ = (s : ℚ) + 1 / 2 := by
  obtain ⟨m, rfl⟩ := Int.eq_ofNat_of_zero_le h0
  have hm : m < 2 ^ 52 := by exact_mod_cast h1
  rw [time_in_seconds_mk, half_second, Double.ofInt_exact m (by omega)]
  push_cast
  apply round_dyadic (2 * m + 1) (-1) (by omega)
  push_cast
  rw [zpow_neg_one]
  ring

/-- At `2^52` seconds the half second is a tie and is rounded away. -/
theorem time_in_seconds_half_lost :
    time_in_seconds ⟨4503599627370496, 500000000⟩ = 4503599627370496 := by
  rw [time_in_seconds_mk, half_second]
  have h1 : Double.ofInt 4503599627370496 = 4503599627370496 := by
    simpa using Double.ofInt_exact 4503599627370496 (by norm_num)
  rw [h1]
  have hb1 : (2 : ℚ) ^ (52 : ℤ) ≤ 4503599627370496 + 1 / 2 := by norm_num
  have hb2 : (4503599627370496 : ℚ) + 1 / 2 < (2 : ℚ) ^ ((52 : ℤ) + 1) := by norm_num
  rw [Double.round_of_binade hb1 hb2]
  have hq : ((4503599627370496 : ℚ) + 1 / 2) / 2 ^ ((52 : ℤ) - 52) =
      ((4503599627370496 : ℤ) : ℚ) + 1 / 2 := by norm_num
  rw [hq, roundHalfEven_tie_even 4503599627370496 (by norm_num)]
  norm_num

/-- A negative second count is converted as it stands: nothing clamps it. -/
theorem time_in_seconds_neg_one : time_in_seconds ⟨-1, 0⟩ = -1 := by
  rw [time_in_seconds_mk]
  have h1 : Double.ofInt (-1) = -1 := by
    have h := Double.round_exact_neg 1 0 (by norm_num)
    simpa [Double.ofInt] using h
  have h2 : Double.div (Double.ofInt 0) Double.lit_1e9 = 0 := by
    simp [Double.ofInt, Double.div, Double.round_zero]
  rw [h1, h2]
  have h := Double.round_exact_neg 1 0 (by norm_num)
  simpa using h

/-- A negative nanosecond count is converted as it stands as well. -/
theorem time_in_seconds_neg_half : time_in_seconds ⟨0, -500000000⟩ = -(1 / 2) := by
  rw [time_in_seconds_mk]
  have h1 : Double.ofInt 0 = 0 := by
    simp [Double.ofInt, Double.round_zero]
  have h2 : Double.ofInt (-500000000) = -500000000 := by
    have h := Double.round_exact_neg 500000000 0 (by norm_num)
    simpa [Double.ofInt] using h
  have h3 : Double.div (-500000000) Double.lit_1e9 = -(1 / 2) := by
    unfold Double.div Double.lit_1e9
    have h := Double.round_exact_neg 1 (-1) (by norm_num)
    have hx : (-500000000 : ℚ) / 1000000000 = -(((1 : ℕ) : ℚ) * 2 ^ (-1 : ℤ)) := by norm_num
    rw [hx, h]
    norm_num
  rw [h1, h2, h3]
  have h := Double.round_exact_neg 1 (-1) (by norm_num)
  have hx : (0 : ℚ) + -(1 / 2) = -(((1 : ℕ) : ℚ) * 2 ^ (-1 : ℤ)) := by norm_num
  rw [hx, h]
  norm_num

/-! ## The claims -/

/-- C1: when the timer query succeeds with the reading `(s, n)`, the function
`accurate_clock` returns exactly one value, the number `s + n / 1e9` evaluated
in double precision; that number agrees with the exact sum up to the rounding
of binary64 (relative error at most `2^-51`), and for the reading `(0, 0)` it
is `0.0`. -/
theorem accurate_clock_success_value (os : Kernel) (p : Process) (s n : ℤ)
    (h : os p.queries.length clockid_t.CLOCK_MONOTONIC = ⟨0, ⟨s, n⟩⟩) :
    (accurate_clock os p).1 = 1 ∧
    results (accurate_clock os p) =
      [LuaValue.number
        (Double.add (Double.ofInt s) (Double.div (Double.ofInt n) Double.lit_1e9))] ∧
    |Double.add (Double.ofInt s) (Double.div (Double.ofInt n) Double.lit_1e9) -
        ((s : ℚ) + (n : ℚ) / 1000000000)| ≤
      (|(s : ℚ)| + |(n : ℚ)| / 1000000000) / 2 ^ (51 : ℕ) ∧
    (s = 0 ∧ n = 0 → results (accurate_clock os p) = [LuaValue.number 0]) := by
  have hst : (os p.queries.length clockid_t.CLOCK_MONOTONIC).status = 0 := by rw [h]
  have hres := results_of_success os p hst
  rw [h] at hres
  refine ⟨?_, hres, time_in_seconds_error s n, ?_⟩
  · rw [accurate_clock_of_success os p hst]
  · rintro ⟨rfl, rfl⟩
    rw [hres, time_in_seconds_zero]

theorem accurate_clock_success_value_witness :
    fixedKernel ⟨0, ⟨0, 0⟩⟩ freshProcess.queries.length clockid_t.CLOCK_MONOTONIC = ⟨0, ⟨0, 0⟩⟩ ∧
    (accurate_clock (fixedKernel ⟨0, ⟨0, 0⟩⟩) freshProcess).1 = 1 ∧
    results (accurate_clock (fixedKernel ⟨0, ⟨0, 0⟩⟩) freshProcess) = [LuaValue.number 0] :=
  ⟨rfl,
    (accurate_clock_success_value (fixedKernel ⟨0, ⟨0, 0⟩⟩) freshProcess 0 0 rfl).1,
    (accurate_clock_success_value (fixedKernel ⟨0, ⟨0, 0⟩⟩) freshProcess 0 0 rfl).2.2.2
      ⟨rfl, rfl⟩⟩

/-- C2: whenever the timer query fails (non-zero status), `accurate_clock`
returns exactly two values, first nil and second the non-empty string
"Failed to get time"; no number is among them. -/
theorem accurate_clock_failure_values (os : Kernel) (p : Process)
    (h : (os p.queries.length clockid_t.CLOCK_MONOTONIC).status ≠ 0) :
    (accurate_clock os p).1 = 2 ∧
    results (accurate_clock os p) = [LuaValue.nil, LuaValue.string "Failed to get time"] ∧
    "Failed to get time" ≠ "" ∧
    ∀ d : ℚ, LuaValue.number d ∉ results (accurate_clock os p) := by
  refine ⟨?_, results_of_failure os p h, by decide, ?_⟩
  · rw [accurate_clock_of_failure os p h]
  · intro d
    rw [results_of_failure os p h]
    simp

theorem accurate_clock_failure_values_witness :
    (fixedKernel ⟨-1, ⟨0, 0⟩⟩ freshProcess.queries.length clockid_t.CLOCK_MONOTONIC).status ≠ 0 ∧
    (accurate_clock (fixedKernel ⟨-1, ⟨0, 0⟩⟩) freshProcess).1 = 2 ∧
    results (accurate_clock (fixedKernel ⟨-1, ⟨0, 0⟩⟩) freshProcess) =
      [LuaValue.nil, LuaValue.string "Failed to get time"] :=
  ⟨by decide,
    (accurate_clock_failure_values (fixedKernel ⟨-1, ⟨0, 0⟩⟩) freshProcess (by decide)).1,
    (accurate_clock_failure_values (fixedKernel ⟨-1, ⟨0, 0⟩⟩) freshProcess (by decide)).2.1⟩

/-- C3: `accurate_clock` returns the failure outcome (nil, message) exactly when
the timer query reports a non-zero status, and the one-value numeric outcome
exactly when the status is zero, whatever the reading; the first returned value
is nil exactly on failure, so it tells the two outcomes apart. -/
theorem accurate_clock_failure_iff (os : Kernel) (p : Process) :
    (results (accurate_clock os p) = [LuaValue.nil, LuaValue.string "Failed to get time"] ↔
      (os p.queries.length clockid_t.CLOCK_MONOTONIC).status ≠ 0) ∧
    (((accurate_clock os p).1 = 1 ∧ results (accurate_clock os p) =
        [LuaValue.number
          (time_in_seconds (os p.queries.length clockid_t.CLOCK_MONOTONIC).spec)]) ↔
      (os p.queries.length clockid_t.CLOCK_MONOTONIC).status = 0) ∧
    ((results (accurate_clock os p)).head? = some LuaValue.nil ↔
      (os p.queries.length clockid_t.CLOCK_MONOTONIC).status ≠ 0) := by
  by_cases h : (os p.queries.length clockid_t.CLOCK_MONOTONIC).status = 0
  · have hres := results_of_success os p h
    have hcnt : (accurate_clock os p).1 = 1 := by rw [accurate_clock_of_success os p h]
    rw [hres]
    simp [h, hcnt]
  · have hres := results_of_failure os p h
    have hcnt : (accurate_clock os p).1 = 2 := by rw [accurate_clock_of_failure os p h]
    rw [hres]
    simp [h, hcnt]

/-- C4: for two successful consecutive calls whose readings `(s1, n1)` then
`(s2, n2)` are non-decreasing in lexicographic order, with non-negative seconds
and nanoseconds in `[0, 999999999]`, each call returns one number and the
second number is at least the first: the conversion preserves the order. -/
theorem consecutive_calls_monotone (os : Kernel) (p : Process) (s1 n1 s2 n2 : ℤ)
    (h1 : os p.queries.length clockid_t.CLOCK_MONOTONIC = ⟨0, ⟨s1, n1⟩⟩)
    (h2 : os (p.queries.length + 1) clockid_t.CLOCK_MONOTONIC = ⟨0, ⟨s2, n2⟩⟩)
    (hs1 : 0 ≤ s1) (hs2 : 0 ≤ s2)
    (hn1 : 0 ≤ n1 ∧ n1 ≤ 999999999) (hn2 : 0 ≤ n2 ∧ n2 ≤ 999999999)
    (hle : s1 < s2 ∨ (s1 = s2 ∧ n1 ≤ n2)) :
    results (accurate_clock os p) = [LuaValue.number (time_in_seconds ⟨s1, n1⟩)] ∧
    results (accurate_clock os (accurate_clock os p).2) =
      [LuaValue.number (time_in_seconds ⟨s2, n2⟩)] ∧
    time_in_seconds ⟨s1, n1⟩ ≤ time_in_seconds ⟨s2, n2⟩ := by
  have hst1 : (os p.queries.length clockid_t.CLOCK_MONOTONIC).status = 0 := by rw [h1]
  have hq : (accurate_clock os p).2.queries.length = p.queries.length + 1 := by
    rw [accurate_clock_of_success os p hst1]
    simp
  have hst2 : (os (accurate_clock os p).2.queries.length
      clockid_t.CLOCK_MONOTONIC).status = 0 := by rw [hq, h2]
  have r1 := results_of_success os p hst1
  have r2 := results_of_success os (accurate_clock os p).2 hst2
  rw [h1] at r1
  rw [hq, h2] at r2
  have _ := hs2
  exact ⟨r1, r2, time_in_seconds_mono hs1 hn1 hn2 hle⟩

theorem consecutive_calls_monotone_witness :
    results (accurate_clock (twoStepKernel ⟨0, ⟨5, 999999999⟩⟩ ⟨0, ⟨6, 0⟩⟩) freshProcess) =
      [LuaValue.number (time_in_seconds ⟨5, 999999999⟩)] ∧
    results (accurate_clock (twoStepKernel ⟨0, ⟨5, 999999999⟩⟩ ⟨0, ⟨6, 0⟩⟩)
        (accurate_clock (twoStepKernel ⟨0, ⟨5, 999999999⟩⟩ ⟨0, ⟨6, 0⟩⟩) freshProcess).2) =
      [LuaValue.number (time_in_seconds ⟨6, 0⟩)] ∧
    time_in_seconds ⟨5, 999999999⟩ ≤ time_in_seconds ⟨6, 0⟩ :=
  consecutive_calls_monotone (twoStepKernel ⟨0, ⟨5, 999999999⟩⟩ ⟨0, ⟨6, 0⟩⟩) freshProcess
    5 999999999 6 0 rfl rfl (by decide) (by decide) (by decide) (by decide) (by decide)

/-- C5: for every successful reading that is a Timestamp of the data model
(seconds non-negative, nanoseconds in `[0, 999999999]`), the number returned by
`accurate_clock` is non-negative. The bounds are assumptions on the reading, not
checks made by the code: the readings `(-1, 0)` and `(0, -500000000)` are
converted to `-1.0` and `-0.5`. -/
theorem accurate_clock_result_nonneg (os : Kernel) (p : Process) (s n : ℤ)
    (h : os p.queries.length clockid_t.CLOCK_MONOTONIC = ⟨0, ⟨s, n⟩⟩)
    (hs : 0 ≤ s) (hn : 0 ≤ n ∧ n ≤ 999999999) :
    (results (accurate_clock os p) = [LuaValue.number (time_in_seconds ⟨s, n⟩)] ∧
      0 ≤ time_in_seconds ⟨s, n⟩) ∧
    results (accurate_clock (fixedKernel ⟨0, ⟨-1, 0⟩⟩) p) = [LuaValue.number (-1)] ∧
    results (accurate_clock (fixedKernel ⟨0, ⟨0, -500000000⟩⟩) p) =
      [LuaValue.number (-(1 / 2))] := by
  have hst : (os p.queries.length clockid_t.CLOCK_MONOTONIC).status = 0 := by rw [h]
  have hres := results_of_success os p hst
  rw [h] at hres
  refine ⟨⟨hres, time_in_seconds_nonneg hs hn.1 hn.2⟩, ?_, ?_⟩
  · have h1 := results_of_success (fixedKernel ⟨0, ⟨-1, 0⟩⟩) p rfl
    rw [h1]
    change [LuaValue.number (time_in_seconds ⟨-1, 0⟩)] = _
    rw [time_in_seconds_neg_one]
  · have h1 := results_of_success (fixedKernel ⟨0, ⟨0, -500000000⟩⟩) p rfl
    rw [h1]
    change [LuaValue.number (time_in_seconds ⟨0, -500000000⟩)] = _
    rw [time_in_seconds_neg_half]

theorem accurate_clock_result_nonneg_witness :
    results (accurate_clock (fixedKernel ⟨0, ⟨7, 999999999⟩⟩) freshProcess) =
      [LuaValue.number (time_in_seconds ⟨7, 999999999⟩)] ∧
    0 ≤ time_in_seconds ⟨7, 999999999⟩ :=
  (accurate_clock_result_nonneg (fixedKernel ⟨0, ⟨7, 999999999⟩⟩) freshProcess 7 999999999
    rfl (by decide) (by decide)).1

/-- C6 fails for large seconds: at the successful reading
`(2^52, 500000000)` the returned number is the integer `2^52`, whose fractional
part is `0`, so it is not within `1e-9` of `0.5`. -/
theorem half_second_lost_at_two_pow_52 :
    results (accurate_clock (fixedKernel ⟨0, ⟨4503599627370496, 500000000⟩⟩) freshProcess) =
      [LuaValue.number 4503599627370496] ∧
    ¬ |Double.frac 4503599627370496 - 1 / 2| < 1 / 1000000000 := by
  constructor
  · have h := results_of_success (fixedKernel ⟨0, ⟨4503599627370496, 500000000⟩⟩)
      freshProcess rfl
    rw [h]
    change [LuaValue.number (time_in_seconds ⟨4503599627370496, 500000000⟩)] = _
    rw [time_in_seconds_half_lost]
  · have hfl : ⌊(4503599627370496 : ℚ)⌋ = 4503599627370496 := by
      exact_mod_cast Int.floor_intCast (4503599627370496 : ℤ)
    unfold Double.frac
    rw [hfl]
    norm_num [abs_of_neg]

/-- C6, amended: for every successful reading `(s, 500000000)` with
`0 ≤ s < 2^52`, the returned number is exactly `s + 0.5`, so its fractional part
is `0.5` and lies within `1e-9` of `0.5`. -/
theorem half_second_kept_below_two_pow_52 (os : Kernel) (p : Process) (s : ℤ)
    (h : os p.queries.length clockid_t.CLOCK_MONOTONIC = ⟨0, ⟨s, 500000000⟩⟩)
    (h0 : 0 ≤ s) (h1 : s < 2 ^ 52) :
    results (accurate_clock os p) = [LuaValue.number ((s : ℚ) + 1 / 2)] ∧
    Double.frac ((s : ℚ) + 1 / 2) = 1 / 2 ∧
    |Double.frac ((s : ℚ) + 1 / 2) - 1 / 2| < 1 / 1000000000 := by
  have hst : (os p.queries.length clockid_t.CLOCK_MONOTONIC).status = 0 := by rw [h]
  have hres := results_of_success os p hst
  rw [h, time_in_seconds_half h0 h1] at hres
  have hfl : ⌊(s : ℚ) + 1 / 2⌋ = s := by
    rw [Int.floor_eq_iff]
    constructor <;> linarith
  have hfrac : Double.frac ((s : ℚ) + 1 / 2) = 1 / 2 := by
    unfold Double.frac
    rw [hfl]
    ring
  refine ⟨hres, hfrac, ?_⟩
  rw [hfrac]
  norm_num

theorem half_second_kept_below_two_pow_52_witness :
    results (accurate_clock (fixedKernel ⟨0, ⟨4503599627370495, 500000000⟩⟩) freshProcess) =
      [LuaValue.number (((4503599627370495 : ℤ) : ℚ) + 1 / 2)] ∧
    Double.frac (((4503599627370495 : ℤ) : ℚ) + 1 / 2) = 1 / 2 ∧
    |Double.frac (((4503599627370495 : ℤ) : ℚ) + 1 / 2) - 1 / 2| < 1 / 1000000000 :=
  half_second_kept_below_two_pow_52 (fixedKernel ⟨0, ⟨4503599627370495, 500000000⟩⟩)
    freshProcess 4503599627370495 rfl (by decide) (by decide)

/-- C7: when the timer query succeeds with the reading `(100, 250000000)`,
`accurate_clock` returns exactly one value, the number `100.25`. -/
theorem accurate_clock_scenario_100_25 (os : Kernel) (p : Process)
    (h : os p.queries.length clockid_t.CLOCK_MONOTONIC = ⟨0, ⟨100, 250000000⟩⟩) :
    (accurate_clock os p).1 = 1 ∧
    results (accurate_clock os p) = [LuaValue.number 100.25] := by
  have hst : (os p.queries.length clockid_t.CLOCK_MONOTONIC).status = 0 := by rw [h]
  have hres := results_of_success os p hst
  rw [h, time_in_seconds_100_25] at hres
  refine ⟨?_, hres⟩
  rw [accurate_clock_of_success os p hst]

theorem accurate_clock_scenario_100_25_witness :
    (accurate_clock (fixedKernel ⟨0, ⟨100, 250000000⟩⟩) freshProcess).1 = 1 ∧
    results (accurate_clock (fixedKernel ⟨0, ⟨100, 250000000⟩⟩) freshProcess) =
      [LuaValue.number 100.25] :=
  accurate_clock_scenario_100_25 (fixedKernel ⟨0, ⟨100, 250000000⟩⟩) freshProcess rfl

/-- C8: `luaopen_accuratetime` returns exactly one value, a new table pushed on
the stack in which the name "clock" is bound to `accurate_clock` (calling
that binding runs `accurate_clock`) and "clock" is the only name registered. -/
theorem luaopen_accuratetime_registers_clock (p : Process) (os : Kernel) (q : Process) :
    (luaopen_accuratetime p).1 = 1 ∧
    (luaopen_accuratetime p).2.L.stack = p.L.stack ++ results (luaopen_accuratetime p) ∧
    (luaopen_accuratetime p).2.queries = p.queries ∧
    results (luaopen_accuratetime p) =
      [LuaValue.table [("clock", some lua_CFunction.accurate_clock)]] ∧
    (results (luaopen_accuratetime p)).map (fun v => lua_getfield v "clock") =
      [some lua_CFunction.accurate_clock] ∧
    (results (luaopen_accuratetime p)).map lua_keys = [["clock"]] ∧
    lua_call lua_CFunction.accurate_clock os q = accurate_clock os q := by
  have hres : results (luaopen_accuratetime p) =
      [LuaValue.table [("clock", some lua_CFunction.accurate_clock)]] := by
    simp [results, luaopen_accuratetime, luaL_newlib, lua_push, LIBRARY, luaL_setfuncs,
      lua_setfield]
  refine ⟨rfl, ?_, rfl, hres, ?_, ?_, rfl⟩
  · rw [hres]
    simp [luaopen_accuratetime, luaL_newlib, lua_push, LIBRARY, luaL_setfuncs, lua_setfield]
  · rw [hres]
    simp [lua_getfield]
  · rw [hres]
    simp [lua_keys]

/-- C9: every call of `accurate_clock` makes exactly one timer query, on
`CLOCK_MONOTONIC` and on no other clock, whether the query succeeds or fails;
besides recording that query the call only pushes its return values on the
stack. -/
theorem accurate_clock_single_monotonic_query (os : Kernel) (p : Process) :
    (accurate_clock os p).2.queries = p.queries ++ [clockid_t.CLOCK_MONOTONIC] ∧
    (accurate_clock os p).2.queries.length = p.queries.length + 1 ∧
    (accurate_clock os p).2.L.stack = p.L.stack ++ results (accurate_clock os p) ∧
    (results (accurate_clock os p)).length = (accurate_clock os p).1 := by
  by_cases h : (os p.queries.length clockid_t.CLOCK_MONOTONIC).status = 0
  · have hres := results_of_success os p h
    rw [hres, accurate_clock_of_success os p h]
    simp
  · have hres := results_of_failure os p h
    rw [hres, accurate_clock_of_failure os p h]
    simp

/-- C10: the results of `accurate_clock` depend on the outcome of its timer
query alone: two calls, on any stacks and after any histories, whose queries
yield the same reading, or both fail, return the same number of values with the
same contents. -/
theorem accurate_clock_deterministic (os1 os2 : Kernel) (p1 p2 : Process)
    (h : os1 p1.queries.length clockid_t.CLOCK_MONOTONIC =
          os2 p2.queries.length clockid_t.CLOCK_MONOTONIC ∨
        ((os1 p1.queries.length clockid_t.CLOCK_MONOTONIC).status ≠ 0 ∧
          (os2 p2.queries.length clockid_t.CLOCK_MONOTONIC).status ≠ 0)) :
    (accurate_clock os1 p1).1 = (accurate_clock os2 p2).1 ∧
    results (accurate_clock os1 p1) = results (accurate_clock os2 p2) := by
  have hfail : (os1 p1.queries.length clockid_t.CLOCK_MONOTONIC).status ≠ 0 →
      (os2 p2.queries.length clockid_t.CLOCK_MONOTONIC).status ≠ 0 →
      (accurate_clock os1 p1).1 = (accurate_clock os2 p2).1 ∧
        results (accurate_clock os1 p1) = results (accurate_clock os2 p2) := by
    intro f1 f2
    rw [results_of_failure os1 p1 f1, results_of_failure os2 p2 f2,
      accurate_clock_of_failure os1 p1 f1, accurate_clock_of_failure os2 p2 f2]
    exact ⟨rfl, rfl⟩
  rcases h with heq | ⟨f1, f2⟩
  · by_cases h1 : (os1 p1.queries.length clockid_t.CLOCK_MONOTONIC).status = 0
    · have h2 : (os2 p2.queries.length clockid_t.CLOCK_MONOTONIC).status = 0 := by
        rw [← heq]
        exact h1
      rw [results_of_success os1 p1 h1, results_of_success os2 p2 h2,
        accurate_clock_of_success os1 p1 h1, accurate_clock_of_success os2 p2 h2, heq]
      exact ⟨rfl, rfl⟩
    · exact hfail h1 (by rw [← heq]; exact h1)
  · exact hfail f1 f2

theorem accurate_clock_deterministic_witness :
    (accurate_clock (fixedKernel ⟨0, ⟨3, 7⟩⟩) freshProcess).1 =
      (accurate_clock (twoStepKernel ⟨-1, ⟨0, 0⟩⟩ ⟨0, ⟨3, 7⟩⟩)
        ⟨⟨[LuaValue.string "arg"]⟩, [clockid_t.CLOCK_MONOTONIC]⟩).1 ∧
    results (accurate_clock (fixedKernel ⟨0, ⟨3, 7⟩⟩) freshProcess) =
      results (accurate_clock (twoStepKernel ⟨-1, ⟨0, 0⟩⟩ ⟨0, ⟨3, 7⟩⟩)
        ⟨⟨[LuaValue.string "arg"]⟩, [clockid_t.CLOCK_MONOTONIC]⟩) :=
  accurate_clock_deterministic (fixedKernel ⟨0, ⟨3, 7⟩⟩)
    (twoStepKernel ⟨-1, ⟨0, 0⟩⟩ ⟨0, ⟨3, 7⟩⟩) freshProcess
    ⟨⟨[LuaValue.string "arg"]⟩, [clockid_t.CLOCK_MONOTONIC]⟩ (Or.inl rfl)
